import Mathlib

/-!
Shallow embedding of the `product-scrapper` repository.

The embedding follows the source files:
  * `src/utils/helpers.py`  — `load_products`, `save_products`, `merge_products`
  * `src/scraper/core.py`   — `ScraperEngine._scrape_single_product`,
                              `ScraperEngine.scrape_all`, semaphore discipline
  * `src/api/routes.py`     — `get_products`
  * `src/models/product.py` — pydantic `Product` model

Python dictionaries are modelled as insertion-ordered association lists,
JSON values as the inductive `Json` (numbers are modelled as integers;
floating point payloads are outside the scope of the verified claims).
-/

namespace ProductScrapper

/-- JSON values as handled by Python's `json` module and passed around as
`Dict[str, Any]` payloads.  Numbers are modelled as integers. -/
inductive Json : Type where
  | null : Json
  | bool : Bool → Json
  | num : Int → Json
  | str : String → Json
  | arr : List Json → Json
  | obj : List (String × Json) → Json

mutual

/-- Structural equality of JSON values (Python `==` on the values produced by
`json.load`, restricted to the modelled payloads). -/
def Json.decEq : (a b : Json) → Decidable (a = b)
  | .null, .null => isTrue rfl
  | .bool a, .bool b =>
      if h : a = b then isTrue (by rw [h]) else isFalse (fun hh => h (Json.bool.inj hh))
  | .num a, .num b =>
      if h : a = b then isTrue (by rw [h]) else isFalse (fun hh => h (Json.num.inj hh))
  | .str a, .str b =>
      if h : a = b then isTrue (by rw [h]) else isFalse (fun hh => h (Json.str.inj hh))
  | .arr a, .arr b =>
      match Json.decEqList a b with
      | isTrue h => isTrue (by rw [h])
      | isFalse h => isFalse (fun hh => h (Json.arr.inj hh))
  | .obj a, .obj b =>
      match Json.decEqObj a b with
      | isTrue h => isTrue (by rw [h])
      | isFalse h => isFalse (fun hh => h (Json.obj.inj hh))
  | .null, .bool _ => isFalse Json.noConfusion
  | .null, .num _ => isFalse Json.noConfusion
  | .null, .str _ => isFalse Json.noConfusion
  | .null, .arr _ => isFalse Json.noConfusion
  | .null, .obj _ => isFalse Json.noConfusion
  | .bool _, .null => isFalse Json.noConfusion
  | .bool _, .num _ => isFalse Json.noConfusion
  | .bool _, .str _ => isFalse Json.noConfusion
  | .bool _, .arr _ => isFalse Json.noConfusion
  | .bool _, .obj _ => isFalse Json.noConfusion
  | .num _, .null => isFalse Json.noConfusion
  | .num _, .bool _ => isFalse Json.noConfusion
  | .num _, .str _ => isFalse Json.noConfusion
  | .num _, .arr _ => isFalse Json.noConfusion
  | .num _, .obj _ => isFalse Json.noConfusion
  | .str _, .null => isFalse Json.noConfusion
  | .str _, .bool _ => isFalse Json.noConfusion
  | .str _, .num _ => isFalse Json.noConfusion
  | .str _, .arr _ => isFalse Json.noConfusion
  | .str _, .obj _ => isFalse Json.noConfusion
  | .arr _, .null => isFalse Json.noConfusion
  | .arr _, .bool _ => isFalse Json.noConfusion
  | .arr _, .num _ => isFalse Json.noConfusion
  | .arr _, .str _ => isFalse Json.noConfusion
  | .arr _, .obj _ => isFalse Json.noConfusion
  | .obj _, .null => isFalse Json.noConfusion
  | .obj _, .bool _ => isFalse Json.noConfusion
  | .obj _, .num _ => isFalse Json.noConfusion
  | .obj _, .str _ => isFalse Json.noConfusion
  | .obj _, .arr _ => isFalse Json.noConfusion

/-- Equality decision for JSON array payloads. -/
def Json.decEqList : (a b : List Json) → Decidable (a = b)
  | [], [] => isTrue rfl
  | [], _ :: _ => isFalse List.noConfusion
  | _ :: _, [] => isFalse List.noConfusion
  | x :: xs, y :: ys =>
      match Json.decEq x y with
      | isFalse h => isFalse (fun hh => h (List.cons.inj hh).1)
      | isTrue h1 =>
        match Json.decEqList xs ys with
        | isTrue h2 => isTrue (by rw [h1, h2])
        | isFalse h => isFalse (fun hh => h (List.cons.inj hh).2)

/-- Equality decision for JSON object payloads. -/
def Json.decEqObj : (a b : List (String × Json)) → Decidable (a = b)
  | [], [] => isTrue rfl
  | [], _ :: _ => isFalse List.noConfusion
  | _ :: _, [] => isFalse List.noConfusion
  | (k1, v1) :: xs, (k2, v2) :: ys =>
      if hk : k1 = k2 then
        match Json.decEq v1 v2 with
        | isFalse h =>
            isFalse (fun hh => h (congrArg Prod.snd (List.cons.inj hh).1))
        | isTrue h1 =>
          match Json.decEqObj xs ys with
          | isTrue h2 => isTrue (by rw [hk, h1, h2])
          | isFalse h => isFalse (fun hh => h (List.cons.inj hh).2)
      else
        isFalse (fun hh => hk (congrArg Prod.fst (List.cons.inj hh).1))

end

instance : DecidableEq Json := Json.decEq

/-- A scraped product record: a Python `Dict[str, Any]` with string keys,
modelled as an insertion-ordered association list. -/
abbrev Record := List (String × Json)

/-- Python `r.get(key)` on a Python dict (first matching key; dicts built from JSON
have unique keys). -/
def getKey : Record → String → Option Json
  | [], _ => none
  | (k, v) :: rest, key => if k = key then some v else getKey rest key

/-- The merge key `p.get("id")` used by `merge_products`
(`src/utils/helpers.py:100-106`).  In Python a stored JSON `null` and an
absent key both surface as `None`, so both collapse to `none` here. -/
def idKey (p : Record) : Option Json :=
  match getKey p "id" with
  | some Json.null => none
  | some v => some v
  | none => none

section Dict

variable {K : Type} {V : Type} [DecidableEq K]

/-- Python dict assignment `d[k] = v` on an insertion-ordered association
list: replace the value in place when the key is present, append otherwise. -/
def dictInsert : List (K × V) → K → V → List (K × V)
  | [], k, v => [(k, v)]
  | (k', v') :: rest, k, v =>
      if k' = k then (k', v) :: rest else (k', v') :: dictInsert rest k v

/-- Python dict lookup `d[k]` / `d.get(k)`. -/
def dlookup (k : K) : List (K × V) → Option V
  | [] => none
  | (k', v) :: rest => if k' = k then some v else dlookup k rest

/-- The key sequence of a dict (`list(d.keys())`). -/
def dkeys (d : List (K × V)) : List K := d.map Prod.fst

end Dict

/-- The dict comprehension `products_dict = {p.get("id"): p for p in existing}`
(`src/utils/helpers.py:100`). -/
def buildDict (l : List Record) : List (Option Json × Record) :=
  l.foldl (fun d p => dictInsert d (idKey p) p) []

/-- The update loop of `merge_products` (`src/utils/helpers.py:103-106`):
records of the incoming list whose id is `None` are skipped, all others are
assigned into the dict. -/
def applyNew (d : List (Option Json × Record)) (l : List Record) :
    List (Option Json × Record) :=
  l.foldl
    (fun d p =>
      match idKey p with
      | none => d
      | some v => dictInsert d (some v) p)
    d

/-- Function `merge_products(existing, new_products)` (`src/utils/helpers.py:78-111`). -/
def merge_products (existing new_products : List Record) : List Record :=
  (applyNew (buildDict existing) new_products).map Prod.snd

section DictLemmas

variable {K : Type} {V : Type} [DecidableEq K]

theorem dlookup_dictInsert_self (d : List (K × V)) (k : K) (v : V) :
    dlookup k (dictInsert d k v) = some v := by
  induction d with
  | nil => simp [dictInsert, dlookup]
  | cons kv rest ih =>
      obtain ⟨k2, v2⟩ := kv
      by_cases hk : k2 = k
      · simp [dictInsert, dlookup, hk]
      · simp [dictInsert, dlookup, hk, ih]

theorem dlookup_dictInsert_ne (d : List (K × V)) (k k' : K) (v : V) (h : k' ≠ k) :
    dlookup k' (dictInsert d k v) = dlookup k' d := by
  have h3 : ¬k = k' := fun hh => h hh.symm
  induction d with
  | nil => simp [dictInsert, dlookup, h3]
  | cons kv rest ih =>
      obtain ⟨k2, v2⟩ := kv
      by_cases hk : k2 = k
      · simp [dictInsert, dlookup, hk, h3]
      · simp only [dictInsert, if_neg hk, dlookup]
        rw [ih]

omit [DecidableEq K] in
theorem dkeys_nil : dkeys ([] : List (K × V)) = [] := rfl

omit [DecidableEq K] in
theorem dkeys_cons (k : K) (v : V) (d : List (K × V)) :
    dkeys ((k, v) :: d) = k :: dkeys d := rfl

theorem dkeys_dictInsert_mem (d : List (K × V)) (k : K) (v : V) (h : k ∈ dkeys d) :
    dkeys (dictInsert d k v) = dkeys d := by
  induction d with
  | nil => simp [dkeys] at h
  | cons kv rest ih =>
      obtain ⟨k2, v2⟩ := kv
      by_cases hk : k2 = k
      · simp [dictInsert, hk, dkeys]
      · have h' : k ∈ dkeys rest := by
          rcases (List.mem_cons).1 h with h1 | h1
          · exact absurd h1.symm hk
          · exact h1
        simp only [dictInsert, if_neg hk, dkeys_cons]
        rw [ih h']

theorem dkeys_dictInsert_not_mem (d : List (K × V)) (k : K) (v : V) (h : k ∉ dkeys d) :
    dkeys (dictInsert d k v) = dkeys d ++ [k] := by
  induction d with
  | nil => simp [dictInsert, dkeys]
  | cons kv rest ih =>
      obtain ⟨k2, v2⟩ := kv
      have hk : k2 ≠ k := fun hh => h (by simp [dkeys_cons, hh])
      have h' : k ∉ dkeys rest := fun hh => h (by simp [dkeys_cons, hh])
      simp only [dictInsert, if_neg hk, dkeys_cons]
      rw [ih h']
      rfl

theorem mem_dkeys_dictInsert (d : List (K × V)) (k k' : K) (v : V) :
    k' ∈ dkeys (dictInsert d k v) ↔ k' = k ∨ k' ∈ dkeys d := by
  by_cases h : k ∈ dkeys d
  · rw [dkeys_dictInsert_mem d k v h]
    constructor
    · exact Or.inr
    · rintro (rfl | hm)
      · exact h
      · exact hm
  · rw [dkeys_dictInsert_not_mem d k v h]
    simp [or_comm]

theorem nodup_dkeys_dictInsert (d : List (K × V)) (k : K) (v : V)
    (h : (dkeys d).Nodup) : (dkeys (dictInsert d k v)).Nodup := by
  by_cases hm : k ∈ dkeys d
  · rw [dkeys_dictInsert_mem d k v hm]; exact h
  · rw [dkeys_dictInsert_not_mem d k v hm]
    rw [List.nodup_append]
    refine ⟨h, List.nodup_singleton k, fun a ha hb => ?_⟩
    rw [List.mem_singleton] at hb
    subst hb
    exact hm ha

theorem dlookup_eq_none_of_not_mem (d : List (K × V)) (k : K) (h : k ∉ dkeys d) :
    dlookup k d = none := by
  induction d with
  | nil => rfl
  | cons kv rest ih =>
      obtain ⟨k2, v2⟩ := kv
      have hk : k2 ≠ k := fun hh => h (by simp [dkeys_cons, hh])
      have h' : k ∉ dkeys rest := fun hh => h (by simp [dkeys_cons, hh])
      simp only [dlookup, if_neg hk]
      exact ih h'

theorem dlookup_of_mem_nodup (d : List (K × V)) (k : K) (v : V)
    (hnd : (dkeys d).Nodup) (h : (k, v) ∈ d) : dlookup k d = some v := by
  induction d with
  | nil => simp at h
  | cons kv rest ih =>
      obtain ⟨k2, v2⟩ := kv
      rcases (List.mem_cons).1 h with h1 | h1
      · obtain ⟨rfl, rfl⟩ := Prod.mk.inj h1.symm
        simp [dlookup]
      · have hk : k2 ≠ k := by
          rintro rfl
          exact ((List.nodup_cons.1 hnd).1)
            (by simpa [dkeys] using List.mem_map_of_mem Prod.fst h1)
        simp only [dlookup, if_neg hk]
        exact ih (List.nodup_cons.1 hnd).2 h1

theorem mem_snd_of_dlookup (d : List (K × V)) (k : K) (v : V)
    (h : dlookup k d = some v) : v ∈ d.map Prod.snd := by
  induction d with
  | nil => simp [dlookup] at h
  | cons kv rest ih =>
      obtain ⟨k2, v2⟩ := kv
      by_cases hk : k2 = k
      · simp only [dlookup, if_pos hk, Option.some.injEq] at h
        simp [h]
      · simp only [dlookup, if_neg hk] at h
        simp [ih h]

/-- An association list with duplicate-free keys is determined by its key
sequence and its lookup function. -/
theorem dict_ext (d d' : List (K × V)) (hk : dkeys d = dkeys d')
    (hnd : (dkeys d).Nodup) (hl : ∀ k, dlookup k d = dlookup k d') : d = d' := by
  induction d generalizing d' with
  | nil =>
      cases d' with
      | nil => rfl
      | cons kv rest => simp [dkeys] at hk
  | cons kv rest ih =>
      obtain ⟨k2, v2⟩ := kv
      cases d' with
      | nil => simp [dkeys] at hk
      | cons kv' rest' =>
          obtain ⟨k3, v3⟩ := kv'
          simp only [dkeys_cons, List.cons.injEq] at hk
          obtain ⟨rfl, hkrest⟩ := hk
          have hv : v2 = v3 := by
            have := hl k2
            simpa [dlookup] using this
          subst hv
          have hnotmem : k2 ∉ dkeys rest := (List.nodup_cons.1 hnd).1
          have hnotmem' : k2 ∉ dkeys rest' := hkrest ▸ hnotmem
          have hrest : rest = rest' := by
            refine ih rest' hkrest (List.nodup_cons.1 hnd).2 (fun k => ?_)
            by_cases hkk : k = k2
            · subst hkk
              rw [dlookup_eq_none_of_not_mem rest k hnotmem,
                dlookup_eq_none_of_not_mem rest' k hnotmem']
            · have := hl k
              have hne : k2 ≠ k := fun hh => hkk hh.symm
              simpa [dlookup, if_neg hne] using this
          rw [hrest]

theorem mem_dictInsert (d : List (K × V)) (k : K) (v : V) (x : K × V)
    (h : x ∈ dictInsert d k v) : x ∈ d ∨ (x.1 = k ∧ x.2 = v) := by
  induction d with
  | nil =>
      simp only [dictInsert, List.mem_singleton] at h
      subst h
      exact Or.inr ⟨rfl, rfl⟩
  | cons kv rest ih =>
      obtain ⟨k2, v2⟩ := kv
      by_cases hk : k2 = k
      · simp only [dictInsert, if_pos hk, List.mem_cons] at h
        rcases h with h1 | h1
        · exact Or.inr ⟨by rw [h1, hk], by rw [h1]⟩
        · exact Or.inl (List.mem_cons_of_mem _ h1)
      · simp only [dictInsert, if_neg hk, List.mem_cons] at h
        rcases h with h1 | h1
        · exact Or.inl (by simp [h1])
        · rcases ih h1 with h2 | h2
          · exact Or.inl (List.mem_cons_of_mem _ h2)
          · exact Or.inr h2

end DictLemmas

/-- The last record of `l` whose merge key is `k`: the record that survives in
a Python dict built by iterated assignment over `l`. -/
def lastWithKey (k : Option Json) : List Record → Option Record
  | [] => none
  | p :: rest =>
      match lastWithKey k rest with
      | some q => some q
      | none => if idKey p = k then some p else none

theorem lastWithKey_eq_none_iff (k : Option Json) (l : List Record) :
    lastWithKey k l = none ↔ ∀ p ∈ l, idKey p ≠ k := by
  induction l with
  | nil => simp [lastWithKey]
  | cons p rest ih =>
      constructor
      · intro h q hq
        simp only [lastWithKey] at h
        rcases hrest : lastWithKey k rest with _ | r
        · rw [hrest] at h
          rcases (List.mem_cons).1 hq with h1 | h1
          · subst h1
            intro hk
            rw [if_pos hk] at h
            exact Option.noConfusion h
          · exact (ih.1 hrest) q h1
        · rw [hrest] at h
          exact Option.noConfusion h
      · intro h
        simp only [lastWithKey]
        rw [ih.2 (fun q hq => h q (List.mem_cons_of_mem _ hq))]
        simp [h p (List.mem_cons_self p rest)]

theorem lastWithKey_isSome (k : Option Json) (l : List Record)
    (h : ∃ p ∈ l, idKey p = k) : (lastWithKey k l).isSome := by
  rcases hl : lastWithKey k l with _ | q
  · obtain ⟨p, hp, hpk⟩ := h
    exact absurd hpk ((lastWithKey_eq_none_iff k l).1 hl p hp)
  · rfl

theorem lastWithKey_mem (k : Option Json) (l : List Record) (q : Record)
    (h : lastWithKey k l = some q) : q ∈ l ∧ idKey q = k := by
  induction l with
  | nil => simp [lastWithKey] at h
  | cons p rest ih =>
      simp only [lastWithKey] at h
      rcases hrest : lastWithKey k rest with _ | r
      · rw [hrest] at h
        by_cases hk : idKey p = k
        · rw [if_pos hk, Option.some.injEq] at h
          subst h
          exact ⟨List.mem_cons_self p rest, hk⟩
        · rw [if_neg hk] at h
          exact Option.noConfusion h
      · rw [hrest] at h
        obtain ⟨hm, hk⟩ := ih (hrest.trans h)
        exact ⟨List.mem_cons_of_mem _ hm, hk⟩

/-- In a list whose merge keys are duplicate-free, every record is the last
record with its own key. -/
theorem lastWithKey_of_nodup (l : List Record) (p : Record)
    (hnd : (l.map idKey).Nodup) (h : p ∈ l) : lastWithKey (idKey p) l = some p := by
  induction l with
  | nil => simp at h
  | cons q rest ih =>
      simp only [List.map_cons, List.nodup_cons] at hnd
      rcases (List.mem_cons).1 h with h1 | h1
      · subst h1
        have hnone : lastWithKey (idKey p) rest = none := by
          rw [lastWithKey_eq_none_iff]
          intro r hr hk
          exact hnd.1 (hk ▸ List.mem_map_of_mem idKey hr)
        simp [lastWithKey, hnone]
      · have := ih hnd.2 h1
        simp [lastWithKey, this]

/-- Lookup in the dict built by the comprehension
`{p.get("id"): p for p in l}` starting from `d`. -/
theorem dlookup_foldIns (l : List Record) (d : List (Option Json × Record))
    (k : Option Json) :
    dlookup k (l.foldl (fun d p => dictInsert d (idKey p) p) d)
      = match lastWithKey k l with
        | some q => some q
        | none => dlookup k d := by
  induction l generalizing d with
  | nil => simp [lastWithKey]
  | cons p rest ih =>
      simp only [List.foldl_cons, lastWithKey]
      rw [ih]
      rcases hrest : lastWithKey k rest with _ | r
      · by_cases hk : idKey p = k
        · subst hk
          simp [dlookup_dictInsert_self]
        · simp [hk, dlookup_dictInsert_ne d (idKey p) k p (fun hh => hk hh.symm)]
      · rfl

/-- Lookup at a `some` key after the `merge_products` update loop. -/
theorem dlookup_applyNew_some (l : List Record) (d : List (Option Json × Record))
    (v : Json) :
    dlookup (some v) (applyNew d l)
      = match lastWithKey (some v) l with
        | some q => some q
        | none => dlookup (some v) d := by
  induction l generalizing d with
  | nil => simp [applyNew, lastWithKey]
  | cons p rest ih =>
      simp only [applyNew, List.foldl_cons, lastWithKey]
      rcases hip : idKey p with _ | w
      · rw [show (rest.foldl (fun d p =>
            match idKey p with
            | none => d
            | some v => dictInsert d (some v) p) d) = applyNew d rest from rfl]
        rw [ih]
        rcases lastWithKey (some v) rest with _ | r
        · simp [hip]
        · rfl
      · rw [show (rest.foldl (fun d p =>
            match idKey p with
            | none => d
            | some v => dictInsert d (some v) p) (dictInsert d (some w) p))
            = applyNew (dictInsert d (some w) p) rest from rfl]
        rw [ih]
        rcases lastWithKey (some v) rest with _ | r
        · by_cases hw : w = v
          · subst hw
            simp [hip, dlookup_dictInsert_self]
          · have h1 : (some w : Option Json) ≠ some v := fun hh => hw (Option.some.inj hh)
            have h2 : (some v : Option Json) ≠ some w := fun hh => hw (Option.some.inj hh).symm
            simp only [hip, if_neg (fun hh => h1 hh)]
            rw [dlookup_dictInsert_ne d (some w) (some v) p h2]
        · rfl

/-- The update loop of `merge_products` never touches the `None` key. -/
theorem dlookup_applyNew_none (l : List Record) (d : List (Option Json × Record)) :
    dlookup none (applyNew d l) = dlookup none d := by
  induction l generalizing d with
  | nil => rfl
  | cons p rest ih =>
      simp only [applyNew, List.foldl_cons]
      rcases hip : idKey p with _ | w
      · simp only [hip]
        exact ih d
      · simp only [hip]
        rw [show (rest.foldl (fun d p =>
            match idKey p with
            | none => d
            | some v => dictInsert d (some v) p) (dictInsert d (some w) p))
            = applyNew (dictInsert d (some w) p) rest from rfl]
        rw [ih, dlookup_dictInsert_ne d (some w) none p (fun hh => Option.noConfusion hh)]

theorem mem_dkeys_foldIns (l : List Record) (d : List (Option Json × Record))
    (k : Option Json) :
    k ∈ dkeys (l.foldl (fun d p => dictInsert d (idKey p) p) d)
      ↔ k ∈ dkeys d ∨ ∃ p ∈ l, idKey p = k := by
  induction l generalizing d with
  | nil => simp
  | cons p rest ih =>
      simp only [List.foldl_cons]
      rw [ih]
      rw [mem_dkeys_dictInsert]
      constructor
      · rintro ((rfl | h) | ⟨q, hq, hqk⟩)
        · exact Or.inr ⟨p, List.mem_cons_self p rest, rfl⟩
        · exact Or.inl h
        · exact Or.inr ⟨q, List.mem_cons_of_mem _ hq, hqk⟩
      · rintro (h | ⟨q, hq, hqk⟩)
        · exact Or.inl (Or.inr h)
        · rcases (List.mem_cons).1 hq with h1 | h1
          · subst h1
            exact Or.inl (Or.inl hqk.symm)
          · exact Or.inr ⟨q, h1, hqk⟩

theorem mem_dkeys_applyNew (l : List Record) (d : List (Option Json × Record))
    (k : Option Json) :
    k ∈ dkeys (applyNew d l)
      ↔ k ∈ dkeys d ∨ (k.isSome ∧ ∃ p ∈ l, idKey p = k) := by
  induction l generalizing d with
  | nil => simp [applyNew]
  | cons p rest ih =>
      simp only [applyNew, List.foldl_cons]
      rcases hip : idKey p with _ | w
      · simp only [hip]
        rw [show (rest.foldl (fun d p =>
            match idKey p with
            | none => d
            | some v => dictInsert d (some v) p) d) = applyNew d rest from rfl]
        rw [ih]
        constructor
        · rintro (h | ⟨hs, q, hq, hqk⟩)
          · exact Or.inl h
          · exact Or.inr ⟨hs, q, List.mem_cons_of_mem _ hq, hqk⟩
        · rintro (h | ⟨hs, q, hq, hqk⟩)
          · exact Or.inl h
          · rcases (List.mem_cons).1 hq with h1 | h1
            · subst h1
              rw [hip] at hqk
              subst hqk
              simp at hs
            · exact Or.inr ⟨hs, q, h1, hqk⟩
      · simp only [hip]
        rw [show (rest.foldl (fun d p =>
            match idKey p with
            | none => d
            | some v => dictInsert d (some v) p) (dictInsert d (some w) p))
            = applyNew (dictInsert d (some w) p) rest from rfl]
        rw [ih]
        rw [mem_dkeys_dictInsert]
        constructor
        · rintro ((rfl | h) | ⟨hs, q, hq, hqk⟩)
          · exact Or.inr ⟨rfl, p, List.mem_cons_self p rest, hip⟩
          · exact Or.inl h
          · exact Or.inr ⟨hs, q, List.mem_cons_of_mem _ hq, hqk⟩
        · rintro (h | ⟨hs, q, hq, hqk⟩)
          · exact Or.inl (Or.inr h)
          · rcases (List.mem_cons).1 hq with h1 | h1
            · subst h1
              rw [hip] at hqk
              exact Or.inl (Or.inl hqk.symm)
            · exact Or.inr ⟨hs, q, h1, hqk⟩

theorem nodup_dkeys_foldIns (l : List Record) (d : List (Option Json × Record))
    (h : (dkeys d).Nodup) :
    (dkeys (l.foldl (fun d p => dictInsert d (idKey p) p) d)).Nodup := by
  induction l generalizing d with
  | nil => exact h
  | cons p rest ih =>
      exact ih _ (nodup_dkeys_dictInsert d (idKey p) p h)

theorem nodup_dkeys_applyNew (l : List Record) (d : List (Option Json × Record))
    (h : (dkeys d).Nodup) : (dkeys (applyNew d l)).Nodup := by
  induction l generalizing d with
  | nil => exact h
  | cons p rest ih =>
      simp only [applyNew, List.foldl_cons]
      rcases hip : idKey p with _ | w
      · simp only [hip]
        exact ih d h
      · simp only [hip]
        exact ih _ (nodup_dkeys_dictInsert d (some w) p h)

/-- Every entry of the dicts built by `merge_products` stores a record under
its own merge key. -/
theorem entry_key_foldIns (l : List Record) (d : List (Option Json × Record))
    (h : ∀ x ∈ d, x.1 = idKey x.2) :
    ∀ x ∈ l.foldl (fun d p => dictInsert d (idKey p) p) d, x.1 = idKey x.2 := by
  induction l generalizing d with
  | nil => exact h
  | cons p rest ih =>
      refine ih _ (fun x hx => ?_)
      rcases mem_dictInsert d (idKey p) p x hx with h1 | ⟨h1, h2⟩
      · exact h x h1
      · rw [h1, h2]

theorem entry_key_applyNew (l : List Record) (d : List (Option Json × Record))
    (h : ∀ x ∈ d, x.1 = idKey x.2) :
    ∀ x ∈ applyNew d l, x.1 = idKey x.2 := by
  induction l generalizing d with
  | nil => exact h
  | cons p rest ih =>
      simp only [applyNew, List.foldl_cons]
      rcases hip : idKey p with _ | w
      · simp only [hip]
        exact ih d h
      · simp only [hip]
        refine ih _ (fun x hx => ?_)
        rcases mem_dictInsert d (some w) p x hx with h1 | ⟨h1, h2⟩
        · exact h x h1
        · rw [h1, h2, hip]

theorem map_idKey_snd (d : List (Option Json × Record))
    (h : ∀ x ∈ d, x.1 = idKey x.2) :
    (d.map Prod.snd).map idKey = dkeys d := by
  induction d with
  | nil => rfl
  | cons x rest ih =>
      simp only [List.map_cons, dkeys, List.map]
      rw [ih (fun y hy => h y (List.mem_cons_of_mem _ hy))]
      rw [← h x (List.mem_cons_self x rest)]
      rfl

theorem entry_key_merge (C X : List Record) :
    ∀ x ∈ applyNew (buildDict C) X, x.1 = idKey x.2 :=
  entry_key_applyNew X (buildDict C)
    (entry_key_foldIns C [] (by intro x hx; simp at hx))

theorem nodup_dkeys_buildDict (C : List Record) : (dkeys (buildDict C)).Nodup :=
  nodup_dkeys_foldIns C [] (by simp [dkeys])

theorem nodup_dkeys_merge (C X : List Record) :
    (dkeys (applyNew (buildDict C) X)).Nodup :=
  nodup_dkeys_applyNew X _ (nodup_dkeys_buildDict C)

/-- C1: For every existing catalog `C` (records carrying integer ids,
duplicate-free as required of a persisted catalog) and incoming list `X` of
records carrying integer ids, `merge_products C X`:
(1) has duplicate-free merge keys and (2) its key set is exactly the ids of
`C` together with the ids of `X`; (3) any merged record whose id occurs in
`X` is `X`'s version of that record (whole-record replacement, last
occurrence of the id in `X` wins); (4) every record of `C` whose id does not
occur in `X` is present in the result unchanged. -/
theorem merge_products_key_property (C X : List Record)
    (hC : ∀ p ∈ C, ∃ n : Int, idKey p = some (Json.num n))
    (hX : ∀ p ∈ X, ∃ n : Int, idKey p = some (Json.num n))
    (hU : (C.map idKey).Nodup) :
    ((merge_products C X).map idKey).Nodup
    ∧ (∀ k, k ∈ (merge_products C X).map idKey
        ↔ k ∈ C.map idKey ∨ k ∈ X.map idKey)
    ∧ (∀ r ∈ merge_products C X,
        idKey r ∈ X.map idKey → lastWithKey (idKey r) X = some r)
    ∧ (∀ p ∈ C, idKey p ∉ X.map idKey → p ∈ merge_products C X) := by
  have inv1 := entry_key_merge C X
  have nd1 := nodup_dkeys_merge C X
  have hkeys : (merge_products C X).map idKey = dkeys (applyNew (buildDict C) X) := by
    simp only [merge_products]
    exact map_idKey_snd _ inv1
  refine ⟨?_, ?_, ?_, ?_⟩
  · rw [hkeys]
    exact nd1
  · intro k
    rw [hkeys, mem_dkeys_applyNew]
    have hb : k ∈ dkeys (buildDict C) ↔ ∃ p ∈ C, idKey p = k := by
      rw [show buildDict C = C.foldl (fun d p => dictInsert d (idKey p) p) [] from rfl,
        mem_dkeys_foldIns]
      simp [dkeys]
    constructor
    · rintro (h | ⟨hs, q, hq, hqk⟩)
      · obtain ⟨p, hp, hpk⟩ := hb.1 h
        exact Or.inl (hpk ▸ List.mem_map_of_mem idKey hp)
      · exact Or.inr (hqk ▸ List.mem_map_of_mem idKey hq)
    · rintro (h | h)
      · obtain ⟨p, hp, hpk⟩ := List.mem_map.1 h
        exact Or.inl (hb.2 ⟨p, hp, hpk⟩)
      · obtain ⟨q, hq, hqk⟩ := List.mem_map.1 h
        refine Or.inr ⟨?_, q, hq, hqk⟩
        obtain ⟨n, hn⟩ := hX q hq
        rw [← hqk, hn]
        rfl
  · intro r hr hrX
    simp only [merge_products] at hr
    obtain ⟨x, hx, hx2⟩ := List.mem_map.1 hr
    have hx1 : x.1 = idKey r := by rw [inv1 x hx, hx2]
    have hmem : ((idKey r : Option Json), r) ∈ applyNew (buildDict C) X := by
      have hxe : x = (idKey r, r) := Prod.ext hx1 hx2
      rwa [hxe] at hx
    have dl : dlookup (idKey r) (applyNew (buildDict C) X) = some r :=
      dlookup_of_mem_nodup _ _ _ nd1 hmem
    obtain ⟨q, hq, hqk⟩ := List.mem_map.1 hrX
    obtain ⟨n, hn⟩ := hX q hq
    have hrn : idKey r = some (Json.num n) := by rw [← hqk, hn]
    rw [hrn] at dl
    rw [dlookup_applyNew_some] at dl
    rcases hl : lastWithKey (some (Json.num n)) X with _ | q'
    · exact absurd (hn ▸ hqk.symm ▸ hrn ▸ rfl : idKey q = some (Json.num n))
        ((lastWithKey_eq_none_iff _ _).1 hl q hq)
    · rw [hl] at dl
      rw [hrn, hl]
      exact congrArg some (Option.some.inj dl)
  · intro p hp hpX
    have hlast : lastWithKey (idKey p) C = some p := lastWithKey_of_nodup C p hU hp
    have d0l : dlookup (idKey p) (buildDict C) = some p := by
      rw [show buildDict C = C.foldl (fun d p => dictInsert d (idKey p) p) [] from rfl,
        dlookup_foldIns, hlast]
    obtain ⟨n, hpn⟩ := hC p hp
    have lnone : lastWithKey (some (Json.num n)) X = none := by
      rw [lastWithKey_eq_none_iff]
      intro q hq hqk
      exact hpX (by rw [hpn, ← hqk]; exact List.mem_map_of_mem idKey hq)
    have d1l : dlookup (idKey p) (applyNew (buildDict C) X) = some p := by
      rw [hpn, dlookup_applyNew_some, lnone, ← hpn]
      exact d0l
    simp only [merge_products]
    exact mem_snd_of_dlookup _ _ _ d1l

/-- Witness for C1 on the spec's own merge scenario
(`existing = [{id:1,name:"A"}]`, `incoming = [{id:1,name:"B"},{id:2,name:"C"}]`). -/
theorem merge_products_key_property_witness :
    (∀ p ∈ [[("id", Json.num 1), ("name", Json.str "A")]],
      ∃ n : Int, idKey p = some (Json.num n))
    ∧ (∀ p ∈ [[("id", Json.num 1), ("name", Json.str "B")],
        [("id", Json.num 2), ("name", Json.str "C")]],
      ∃ n : Int, idKey p = some (Json.num n))
    ∧ (([[("id", Json.num 1), ("name", Json.str "A")]].map idKey)).Nodup
    ∧ (∀ k, k ∈ (merge_products [[("id", Json.num 1), ("name", Json.str "A")]]
          [[("id", Json.num 1), ("name", Json.str "B")],
           [("id", Json.num 2), ("name", Json.str "C")]]).map idKey
        ↔ k ∈ [[("id", Json.num 1), ("name", Json.str "A")]].map idKey
          ∨ k ∈ [[("id", Json.num 1), ("name", Json.str "B")],
              [("id", Json.num 2), ("name", Json.str "C")]].map idKey) := by
  have h1 : ∀ p ∈ [[("id", Json.num 1), ("name", Json.str "A")]],
      ∃ n : Int, idKey p = some (Json.num n) := by
    intro p hp
    rw [List.mem_singleton] at hp
    exact ⟨1, by rw [hp]; decide⟩
  have h2 : ∀ p ∈ [[("id", Json.num 1), ("name", Json.str "B")],
      [("id", Json.num 2), ("name", Json.str "C")]],
      ∃ n : Int, idKey p = some (Json.num n) := by
    intro p hp
    rcases (List.mem_cons).1 hp with h | h
    · exact ⟨1, by rw [h]; decide⟩
    · rw [List.mem_singleton] at h
      exact ⟨2, by rw [h]; decide⟩
  have h3 : (([[("id", Json.num 1), ("name", Json.str "A")]].map idKey)).Nodup := by
    decide
  exact ⟨h1, h2, h3,
    (merge_products_key_property _ _ h1 h2 h3).2.1⟩

/-- The keys appended (in order) to a dict with key sequence `ks` by the
`merge_products` update loop, as a function of the incoming key sequence. -/
def keyNew (ks : List (Option Json)) : List (Option Json) → List (Option Json)
  | [] => []
  | k :: rest =>
      match k with
      | none => keyNew ks rest
      | some v =>
          if some v ∈ ks then keyNew ks rest
          else some v :: keyNew (ks ++ [some v]) rest

theorem dkeys_applyNew (l : List Record) (d : List (Option Json × Record)) :
    dkeys (applyNew d l) = dkeys d ++ keyNew (dkeys d) (l.map idKey) := by
  induction l generalizing d with
  | nil => simp [applyNew, keyNew]
  | cons p rest ih =>
      simp only [applyNew, List.foldl_cons, List.map_cons]
      rcases hip : idKey p with _ | w
      · simp only [hip, keyNew]
        exact ih d
      · simp only [hip, keyNew]
        by_cases hw : (some w : Option Json) ∈ dkeys d
        · rw [if_pos hw]
          rw [show (rest.foldl (fun d p =>
              match idKey p with
              | none => d
              | some v => dictInsert d (some v) p) (dictInsert d (some w) p))
              = applyNew (dictInsert d (some w) p) rest from rfl]
          rw [ih, dkeys_dictInsert_mem d (some w) p hw]
        · rw [if_neg hw]
          rw [show (rest.foldl (fun d p =>
              match idKey p with
              | none => d
              | some v => dictInsert d (some v) p) (dictInsert d (some w) p))
              = applyNew (dictInsert d (some w) p) rest from rfl]
          rw [ih, dkeys_dictInsert_not_mem d (some w) p hw, List.append_assoc]
          rfl

theorem keyNew_all_some (js ks : List (Option Json)) :
    ∀ k ∈ keyNew ks js, k ≠ none := by
  induction js generalizing ks with
  | nil => simp [keyNew]
  | cons k rest ih =>
      rcases k with _ | v
      · simp only [keyNew]
        exact ih ks
      · simp only [keyNew]
        by_cases hv : (some v : Option Json) ∈ ks
        · rw [if_pos hv]
          exact ih ks
        · rw [if_neg hv]
          intro k' hk'
          rcases (List.mem_cons).1 hk' with h | h
          · rw [h]
            exact fun hh => Option.noConfusion hh
          · exact ih _ k' h

theorem keyNew_append_left (pre js ks : List (Option Json))
    (h : ∀ k ∈ pre, k = none ∨ k ∈ ks) :
    keyNew ks (pre ++ js) = keyNew ks js := by
  induction pre with
  | nil => rfl
  | cons k rest ih =>
      rcases hk : k with _ | v
      · simp only [List.cons_append, keyNew]
        exact ih (fun k' hk' => h k' (List.mem_cons_of_mem _ hk'))
      · have hm : (some v : Option Json) ∈ ks := by
          rcases h k (List.mem_cons_self k rest) with h1 | h1
          · rw [hk] at h1
            exact Option.noConfusion h1
          · rw [← hk]
            exact h1
        simp only [List.cons_append, keyNew, if_pos hm]
        exact ih (fun k' hk' => h k' (List.mem_cons_of_mem _ hk'))

theorem keyNew_self_of_nodup (N ks : List (Option Json))
    (hnd : (ks ++ N).Nodup) (hs : ∀ k ∈ N, k ≠ none) :
    keyNew ks N = N := by
  induction N generalizing ks with
  | nil => rfl
  | cons k rest ih =>
      rcases hk : k with _ | v
      · exact absurd hk (hs k (List.mem_cons_self k rest))
      · subst hk
        have hnm : (some v : Option Json) ∉ ks := by
          intro hmem
          rcases List.nodup_append.1 hnd with ⟨_, _, hdis⟩
          exact hdis hmem (List.mem_cons_self _ rest)
        simp only [keyNew, if_neg hnm]
        congr 1
        refine ih (ks ++ [some v]) ?_ (fun k' hk' => hs k' (List.mem_cons_of_mem _ hk'))
        rw [List.append_assoc]
        simpa using hnd

/-- C5: Merge is idempotent in its incoming batch: re-merging the merged
batch over the same catalog changes nothing, for arbitrary `C` and `X`
(`merge(C, merge(C, X)) == merge(C, X)`). -/
theorem merge_products_idempotent (C X : List Record) :
    merge_products C (merge_products C X) = merge_products C X := by
  have inv1 := entry_key_merge C X
  have nd1 := nodup_dkeys_merge C X
  have hMkeys : (((applyNew (buildDict C) X).map Prod.snd).map idKey)
      = dkeys (applyNew (buildDict C) X) := map_idKey_snd _ inv1
  have hkeys1 : dkeys (applyNew (buildDict C) X)
      = dkeys (buildDict C) ++ keyNew (dkeys (buildDict C)) (X.map idKey) :=
    dkeys_applyNew X (buildDict C)
  have hkeys2 : dkeys (applyNew (buildDict C) ((applyNew (buildDict C) X).map Prod.snd))
      = dkeys (applyNew (buildDict C) X) := by
    rw [dkeys_applyNew, hMkeys, hkeys1,
      keyNew_append_left (dkeys (buildDict C)) _ (dkeys (buildDict C))
        (fun k hk => Or.inr hk)]
    congr 1
    exact keyNew_self_of_nodup _ _ (hkeys1 ▸ nd1) (keyNew_all_some _ _)
  have heq : applyNew (buildDict C) ((applyNew (buildDict C) X).map Prod.snd)
      = applyNew (buildDict C) X := by
    refine dict_ext _ _ hkeys2 (hkeys2 ▸ nd1) (fun k => ?_)
    cases k with
    | none =>
        rw [dlookup_applyNew_none, dlookup_applyNew_none]
    | some v =>
        rw [dlookup_applyNew_some]
        rcases hl : lastWithKey (some v) ((applyNew (buildDict C) X).map Prod.snd)
          with _ | q
        · have hnot : (some v : Option Json) ∉ dkeys (applyNew (buildDict C) X) := by
            rw [← hMkeys]
            intro hmem
            obtain ⟨p, hp, hpk⟩ := List.mem_map.1 hmem
            exact ((lastWithKey_eq_none_iff _ _).1 hl p hp) hpk
          have hnot0 : (some v : Option Json) ∉ dkeys (buildDict C) := fun h =>
            hnot (hkeys1 ▸ List.mem_append_left _ h)
          rw [dlookup_eq_none_of_not_mem _ _ hnot0,
            dlookup_eq_none_of_not_mem _ _ hnot]
        · obtain ⟨hqm, hqk⟩ := lastWithKey_mem _ _ _ hl
          obtain ⟨x, hx, hx2⟩ := List.mem_map.1 hqm
          have hx1 : x.1 = some v := by rw [inv1 x hx, hx2, hqk]
          have hmem : ((some v : Option Json), q) ∈ applyNew (buildDict C) X := by
            have hxe : x = (some v, q) := Prod.ext hx1 hx2
            rwa [hxe] at hx
          rw [dlookup_of_mem_nodup _ _ _ nd1 hmem]
  show (applyNew (buildDict C)
      ((applyNew (buildDict C) X).map Prod.snd)).map Prod.snd = _
  rw [heq]
  rfl

/-!
### Persistence (`src/utils/helpers.py:13-75`)

File I/O is an external collaborator (spec §1): the state of one path is
either absent, present-but-unparseable (any `json.load` failure), or a
successfully parsed catalog (the only shape `save_products` ever writes is a
JSON array of objects).
-/

/-- The state of one file path as observed by `load_products`. -/
inductive FileState : Type where
  | absent : FileState
  | malformed : FileState
  | stored : List Record → FileState

/-- The file system: contents per path. -/
def FS : Type := String → FileState

/-- Function `load_products(file_path)` (`src/utils/helpers.py:13-43`): returns the
parsed data when the file exists and parses, `[]` when the path is absent
(`Path.exists` check), and `[]` when `json.load` raises
(`except json.JSONDecodeError` / catch-all `except Exception`).  The function
is total: it never raises. -/
def load_products (fs : FS) (file_path : String) : List Record :=
  match fs file_path with
  | .absent => []
  | .malformed => []
  | .stored data => data

/-- Function `save_products(products, file_path)` (`src/utils/helpers.py:46-75`):
writes the full catalog as one JSON snapshot and returns `True`; any
environment failure (mkdir/open/dump raising) is caught and reported as
`False` with the target path not durably updated.  `ioFails` injects such an
environment failure. -/
def save_products (ioFails : Bool) (fs : FS) (products : List Record)
    (file_path : String) : FS × Bool :=
  if ioFails then (fs, false)
  else (fun p => if p = file_path then .stored products else fs p, true)

/-- C4: the function `load_products` never raises (it is a total function of the file
state): it returns the persisted catalog when the file exists and parses,
and the empty catalog both when the path is absent and when the file holds
unparseable data. -/
theorem load_products_total_contract (fs : FS) (file_path : String) :
    (fs file_path = .absent → load_products fs file_path = [])
    ∧ (fs file_path = .malformed → load_products fs file_path = [])
    ∧ (∀ cat, fs file_path = .stored cat → load_products fs file_path = cat) := by
  refine ⟨fun h => ?_, fun h => ?_, fun cat h => ?_⟩
  · rw [load_products, h]
  · rw [load_products, h]
  · rw [load_products, h]

/-- Witness for C4: the three file states exercised at a concrete path. -/
theorem load_products_total_contract_witness :
    load_products (fun _ => .absent) "products.json" = []
    ∧ load_products (fun _ => .malformed) "products.json" = []
    ∧ load_products (fun _ => .stored [[("id", Json.num 1)]]) "products.json"
        = [[("id", Json.num 1)]] :=
  ⟨(load_products_total_contract (fun _ => .absent) "products.json").1 rfl,
   (load_products_total_contract (fun _ => .malformed) "products.json").2.1 rfl,
   (load_products_total_contract (fun _ => .stored [[("id", Json.num 1)]])
      "products.json").2.2 _ rfl⟩

/-- C9: Save/load round trip: whenever `save_products` reports success,
loading the same path back yields exactly the saved catalog (hence also
equality modulo ordering, as the claim states), for every non-empty catalog
`C` and path `p`. -/
theorem save_load_round_trip (ioFails : Bool) (fs : FS) (C : List Record)
    (p : String) (_hne : C ≠ [])
    (hok : (save_products ioFails fs C p).2 = true) :
    load_products (save_products ioFails fs C p).1 p = C := by
  cases ioFails with
  | true => simp [save_products] at hok
  | false => simp [save_products, load_products]

/-- Witness for C9 at a concrete one-record catalog. -/
theorem save_load_round_trip_witness :
    ([[("id", Json.num 7), ("name", Json.str "X")]] : List Record) ≠ []
    ∧ (save_products false (fun _ => .absent)
        [[("id", Json.num 7), ("name", Json.str "X")]] "data/products.json").2 = true
    ∧ load_products (save_products false (fun _ => .absent)
        [[("id", Json.num 7), ("name", Json.str "X")]] "data/products.json").1
        "data/products.json"
      = [[("id", Json.num 7), ("name", Json.str "X")]] := by
  refine ⟨by decide, rfl, ?_⟩
  exact save_load_round_trip false (fun _ => .absent)
    [[("id", Json.num 7), ("name", Json.str "X")]] "data/products.json"
    (by decide) rfl

/-!
### Scraper engine, functional view (`src/scraper/core.py`)

`scrape_all` is modelled as a function of (a) whether the browser launch in
`_init_browser` raises (`Backend.launchFails`), (b) the per-task extraction
behaviour `ext` (what `scraper.scrape_product(page, url, product_id)` does
for a given url and assigned id), and (c) the target list returned once by
`scraper.get_product_urls()`.  `RunTrace` records the resource events of the
run: browser launches, browser closes (the `finally` block of `scrape_all`),
pages opened (`context.new_page()` per task) and tasks issued.
-/

/-- What one `scraper.scrape_product` call does: produce a record, or raise. -/
inductive TaskOutcome : Type where
  | success : Record → TaskOutcome
  | failure : String → TaskOutcome

/-- Whether the chromium launch in `_init_browser`
(`src/scraper/core.py:91-104`) raises. -/
structure Backend : Type where
  launchFails : Bool

/-- Observable resource events of one `scrape_all` run. -/
structure RunTrace : Type where
  browserLaunched : Nat
  browserClosed : Nat
  pagesCreated : Nat
  tasksAttempted : Nat

/-- Error `BackendUnavailable`: the shared browser resource could not be opened. -/
inductive ScrapeError : Type where
  | backendUnavailable : ScrapeError

/-- Method `_scrape_single_product` (`src/scraper/core.py:106-143`): runs the
extraction under the semaphore and returns the record, or catches any
exception and returns `None`. -/
def scrape_single_product (ext : String → Nat → TaskOutcome) (url : String)
    (product_id : Nat) : Option Record :=
  match ext url product_id with
  | .success r => some r
  | .failure _ => none

/-- The task list built by `scrape_all` (`src/scraper/core.py:172-175`):
one task per url, with assigned identifier `idx + 1`. -/
def taskResults (ext : String → Nat → TaskOutcome) (urls : List String) :
    List (Option Record) :=
  urls.enum.map (fun p => scrape_single_product ext p.2 (p.1 + 1))

/-- The sequential identifiers assigned by `scrape_all`: `idx + 1` for the
target at zero-based position `idx` (`src/scraper/core.py:173`). -/
def taskIds (urls : List String) : List Nat :=
  urls.enum.map (fun p => p.1 + 1)

/-- Method `scrape_all` (`src/scraper/core.py:145-192`): launch the browser (a
launch failure propagates before any task is created), run one task per url
under the semaphore, gather all outcomes, drop `None`s, and close context
and browser in the `finally` block. -/
def scrape_all (b : Backend) (ext : String → Nat → TaskOutcome)
    (urls : List String) : Except ScrapeError (List Record) × RunTrace :=
  if b.launchFails then
    (.error .backendUnavailable,
      { browserLaunched := 0, browserClosed := 0, pagesCreated := 0,
        tasksAttempted := 0 })
  else
    (.ok ((taskResults ext urls).filterMap id),
      { browserLaunched := 1, browserClosed := 1, pagesCreated := urls.length,
        tasksAttempted := urls.length })

/-- C2: If the browser launches but every task's extraction raises,
`scrape_all` returns an empty record list without raising (the result is
`.ok []`, not an error), and the session backend is closed exactly once. -/
theorem scrape_all_all_tasks_fail (b : Backend)
    (ext : String → Nat → TaskOutcome) (urls : List String)
    (hb : b.launchFails = false)
    (hf : ∀ u n, ∃ msg, ext u n = .failure msg) :
    (scrape_all b ext urls).1 = .ok []
    ∧ (scrape_all b ext urls).2.browserClosed = 1
    ∧ (scrape_all b ext urls).2.browserLaunched = 1 := by
  have hres : (taskResults ext urls).filterMap id = [] := by
    rw [List.filterMap_eq_nil_iff]
    intro a ha
    obtain ⟨p, _, hp⟩ := List.mem_map.1 ha
    obtain ⟨msg, hmsg⟩ := hf p.2 (p.1 + 1)
    rw [← hp, scrape_single_product, hmsg]
    rfl
  refine ⟨?_, ?_, ?_⟩ <;> simp [scrape_all, hb, hres]

/-- Witness for C2: two targets, both extractions raise. -/
theorem scrape_all_all_tasks_fail_witness :
    (scrape_all ⟨false⟩ (fun _ _ => .failure "timeout") ["u1", "u2"]).1 = .ok []
    ∧ (scrape_all ⟨false⟩ (fun _ _ => .failure "timeout") ["u1", "u2"]).2.browserClosed
        = 1 := by
  have h := scrape_all_all_tasks_fail ⟨false⟩ (fun _ _ => .failure "timeout")
    ["u1", "u2"] rfl (fun u n => ⟨"timeout", rfl⟩)
  exact ⟨h.1, h.2.1⟩

/-- C6: If the browser launch raises, `scrape_all` propagates
`BackendUnavailable` to the caller: no task is issued, no page is created,
nothing is closed, and no partial result list is returned. -/
theorem scrape_all_backend_unavailable (b : Backend)
    (ext : String → Nat → TaskOutcome) (urls : List String)
    (hb : b.launchFails = true) :
    (scrape_all b ext urls).1 = .error .backendUnavailable
    ∧ (scrape_all b ext urls).2.tasksAttempted = 0
    ∧ (scrape_all b ext urls).2.pagesCreated = 0 := by
  refine ⟨?_, ?_, ?_⟩ <;> simp [scrape_all, hb]

/-- Witness for C6. -/
theorem scrape_all_backend_unavailable_witness :
    (scrape_all ⟨true⟩ (fun _ _ => .success []) ["u1"]).1
        = .error .backendUnavailable
    ∧ (scrape_all ⟨true⟩ (fun _ _ => .success []) ["u1"]).2.tasksAttempted = 0 := by
  have h := scrape_all_backend_unavailable ⟨true⟩ (fun _ _ => .success []) ["u1"] rfl
  exact ⟨h.1, h.2.1⟩

/-- C3: The identifier assigned to the target at zero-based position
`idx` is `idx + 1`, so the assigned identifiers are exactly `1..M` in target
order; the assignment is a function of the position alone — `taskIds` does
not depend on the extraction behaviour, and the task at position `idx`
always runs with identifier `idx + 1` whatever `ext` does. -/
theorem assigned_ids_sequential (urls : List String) :
    taskIds urls = List.range' 1 urls.length
    ∧ (∀ idx, idx < urls.length → (taskIds urls)[idx]? = some (idx + 1))
    ∧ (∀ (ext : String → Nat → TaskOutcome) (idx : Nat) (h : idx < urls.length),
        (taskResults ext urls)[idx]?
          = some (scrape_single_product ext (urls.get ⟨idx, h⟩) (idx + 1))) := by
  have hids : taskIds urls = List.range' 1 urls.length := by
    apply List.ext_getElem?
    intro n
    by_cases h : n < urls.length
    · rw [taskIds, List.getElem?_map, List.getElem?_enum,
        List.getElem?_eq_getElem h]
      simp [List.getElem?_range', h, Nat.add_comm]
    · rw [taskIds, List.getElem?_map, List.getElem?_enum,
        List.getElem?_eq_none (Nat.le_of_not_lt h)]
      simp [List.getElem?_range', h]
      omega
  refine ⟨hids, fun idx hidx => ?_, fun ext idx h => ?_⟩
  · rw [hids]
    simp [List.getElem?_range', hidx, Nat.add_comm]
  · rw [taskResults, List.getElem?_map, List.getElem?_enum,
      List.getElem?_eq_getElem h]
    rfl

/-- Witness for C3: three targets, a failing extraction; position 1 carries
identifier 2 and the full id list is `[1, 2, 3]`. -/
theorem assigned_ids_sequential_witness :
    taskIds ["u1", "u2", "u3"] = [1, 2, 3]
    ∧ (taskIds ["u1", "u2", "u3"])[1]? = some 2
    ∧ (taskResults (fun _ _ => .failure "boom") ["u1", "u2", "u3"])[1]?
        = some (scrape_single_product (fun _ _ => .failure "boom") "u2" 2) := by
  have h := assigned_ids_sequential ["u1", "u2", "u3"]
  refine ⟨by rw [h.1]; rfl, h.2.1 1 (by decide), ?_⟩
  exact h.2.2 (fun _ _ => .failure "boom") 1 (by decide)

/-!
### Scraper engine, concurrency view (`src/scraper/core.py:84, 125-143, 178`)

The semaphore discipline as a transition system over task interleavings:
`asyncio.Semaphore(max_concurrent)` (line 84) starts with `N` free permits;
each task acquires a permit before opening its page
(`async with self.semaphore`, line 125, then `context.new_page()`, line 128)
and releases it when its page is closed in the `finally` block (lines
141-143); `await asyncio.gather(*tasks)` (line 178) returns control to
`scrape_all` only once every task has reached a terminal outcome.
-/

/-- Phase of one task coroutine of `scrape_all`. -/
inductive TaskPhase : Type where
  | waiting : TaskPhase
  | holding : TaskPhase
  | finished : TaskPhase
deriving DecidableEq

/-- State of one run: per-task phases (one per target), free semaphore
permits, and whether `scrape_all` has returned to its caller. -/
structure EngineState : Type where
  tasks : List TaskPhase
  sem : Nat
  returned : Bool
deriving DecidableEq

/-- Initial state: `M` tasks created by the comprehension on lines 172-175,
`N = max_concurrent` free permits. -/
def initState (N M : Nat) : EngineState :=
  { tasks := List.replicate M .waiting, sem := N, returned := false }

/-- One scheduler step: a waiting task is admitted by the semaphore and opens
its page, a holding task closes its page and releases its permit, or the
`gather` barrier returns once every task is terminal. -/
inductive EngineStep : EngineState → EngineState → Prop where
  | acquire (s : EngineState) (i : Nat)
      (h : s.tasks[i]? = some .waiting) (hs : 0 < s.sem)
      (hr : s.returned = false) :
      EngineStep s
        { tasks := s.tasks.set i .holding, sem := s.sem - 1, returned := false }
  | release (s : EngineState) (i : Nat)
      (h : s.tasks[i]? = some .holding) (hr : s.returned = false) :
      EngineStep s
        { tasks := s.tasks.set i .finished, sem := s.sem + 1, returned := false }
  | finish (s : EngineState)
      (h : ∀ t ∈ s.tasks, t = .finished) (hr : s.returned = false) :
      EngineStep s { tasks := s.tasks, sem := s.sem, returned := true }

/-- States reachable by some interleaving of a run with bound `N` and `M`
targets. -/
def Reachable (N M : Nat) (s : EngineState) : Prop :=
  Relation.ReflTransGen EngineStep (initState N M) s

/-- Number of sub-sessions (pages) currently open. -/
def holdingCount (s : EngineState) : Nat :=
  s.tasks.countP (fun t => t = TaskPhase.holding)

theorem countP_set_acquire (l : List TaskPhase) (i : Nat)
    (h : l[i]? = some TaskPhase.waiting) :
    (l.set i TaskPhase.holding).countP (fun t => t = TaskPhase.holding)
      = l.countP (fun t => t = TaskPhase.holding) + 1 := by
  induction l generalizing i with
  | nil => simp at h
  | cons x rest ih =>
      cases i with
      | zero =>
          rw [List.getElem?_cons_zero, Option.some.injEq] at h
          subst h
          simp [List.countP_cons]
      | succ n =>
          rw [List.getElem?_cons_succ] at h
          simp only [List.set_cons_succ, List.countP_cons]
          rw [ih n h]
          omega

theorem countP_set_release (l : List TaskPhase) (i : Nat)
    (h : l[i]? = some TaskPhase.holding) :
    (l.set i TaskPhase.finished).countP (fun t => t = TaskPhase.holding) + 1
      = l.countP (fun t => t = TaskPhase.holding) := by
  induction l generalizing i with
  | nil => simp at h
  | cons x rest ih =>
      cases i with
      | zero =>
          rw [List.getElem?_cons_zero, Option.some.injEq] at h
          subst h
          simp [List.countP_cons]
      | succ n =>
          rw [List.getElem?_cons_succ] at h
          simp only [List.set_cons_succ, List.countP_cons]
          rw [← ih n h]
          omega

/-- C7: For every bound `N ≥ 1` and target count `M`, along every
interleaving of a run: exactly `M` tasks are issued (the task list always
has length `M`); free permits and open sub-sessions always balance to `N`,
so at no instant are more than `N` sub-sessions open (hard admission
ceiling); and control returns to the caller only once every one of the `M`
tasks has reached a terminal outcome (barrier). -/
theorem orchestrator_invariants (N M : Nat) (s : EngineState)
    (_hN : 1 ≤ N) (hreach : Reachable N M s) :
    s.tasks.length = M
    ∧ s.sem + holdingCount s = N
    ∧ holdingCount s ≤ N
    ∧ (s.returned = true → ∀ t ∈ s.tasks, t = .finished) := by
  have main : s.tasks.length = M ∧ s.sem + holdingCount s = N
      ∧ (s.returned = true → ∀ t ∈ s.tasks, t = .finished) := by
    induction hreach with
    | refl =>
        refine ⟨List.length_replicate M _, ?_, ?_⟩
        · have hc : holdingCount (initState N M) = 0 := by
            rw [holdingCount]
            rw [List.countP_eq_zero]
            intro a ha
            rw [List.eq_of_mem_replicate ha]
            decide
          rw [hc, initState]
          rfl
        · intro hret
          exact absurd hret (by rw [initState]; simp)
    | tail hsteps hstep ih =>
        obtain ⟨ihlen, ihsem, ihret⟩ := ih
        cases hstep with
        | acquire i h hs hr =>
            refine ⟨by rw [List.length_set]; exact ihlen, ?_, ?_⟩
            · simp only [holdingCount] at ihsem ⊢
              rw [countP_set_acquire _ i h]
              omega
            · intro hret
              simp at hret
        | release i h hr =>
            refine ⟨by rw [List.length_set]; exact ihlen, ?_, ?_⟩
            · simp only [holdingCount] at ihsem ⊢
              rw [← countP_set_release _ i h] at ihsem
              omega
            · intro hret
              simp at hret
        | finish h hr =>
            exact ⟨ihlen, ihsem, fun _ => h⟩
  exact ⟨main.1, main.2.1, by omega, main.2.2⟩

/-- Witness for C7: bound 2, three targets, the state reached after task 0
is admitted and opens its page. -/
theorem orchestrator_invariants_witness :
    (1 ≤ 2)
    ∧ ({ tasks := [TaskPhase.holding, TaskPhase.waiting, TaskPhase.waiting],
          sem := 1, returned := false } : EngineState).tasks.length = 3
    ∧ holdingCount
        { tasks := [TaskPhase.holding, TaskPhase.waiting, TaskPhase.waiting],
          sem := 1, returned := false } ≤ 2 := by
  have hreach : Reachable 2 3
      { tasks := [TaskPhase.holding, TaskPhase.waiting, TaskPhase.waiting],
        sem := 1, returned := false } :=
    Relation.ReflTransGen.single
      (EngineStep.acquire (initState 2 3) 0 rfl (by decide) rfl)
  have h := orchestrator_invariants 2 3 _ (by decide) hreach
  exact ⟨by decide, h.1, h.2.2.1⟩

/-!
### Read API (`src/api/routes.py:55-156`, `src/models/product.py:9-34`)
-/

/-- The pydantic `Product` model (`src/models/product.py:9-34`): `id : int`,
`name : str` (min_length 1), `image_url : str`, `description : str`,
`price : str | float`, `rating : Optional[str | float]`,
`specifications : Dict[str, Any]` (default `{}`),
`source_url : Optional[str]`. -/
structure Product : Type where
  id : Int
  name : String
  image_url : String
  description : String
  price : Json
  rating : Option Json
  specifications : List (String × Json)
  source_url : Option String
deriving DecidableEq

/-- Validation of a required `int` field. -/
def asInt : Option Json → Option Int
  | some (Json.num n) => some n
  | _ => none

/-- Validation of a required `str` field. -/
def asStr : Option Json → Option String
  | some (Json.str s) => some s
  | _ => none

/-- Validation of the `str | float` `price` field. -/
def asPrice : Option Json → Option Json
  | some (Json.str s) => some (Json.str s)
  | some (Json.num n) => some (Json.num n)
  | _ => none

/-- Validation of the `Optional[str | float]` `rating` field. -/
def asOptStrOrNum : Option Json → Option (Option Json)
  | none => some none
  | some Json.null => some none
  | some (Json.str s) => some (some (Json.str s))
  | some (Json.num n) => some (some (Json.num n))
  | _ => none

/-- Validation of the `Dict[str, Any]` `specifications` field (defaults to
the empty dict when absent). -/
def asSpecs : Option Json → Option (List (String × Json))
  | none => some []
  | some (Json.obj kvs) => some kvs
  | _ => none

/-- Validation of the `Optional[str]` `source_url` field. -/
def asOptStr : Option Json → Option (Option String)
  | none => some none
  | some Json.null => some none
  | some (Json.str s) => some (some s)
  | _ => none

/-- Validation `Product(**p)` (`src/api/routes.py:134`): pydantic validation of one
stored record against the `Product` model; `none` models a raised
`ValidationError`.  (Pydantic's lax string-to-number coercions are not
modelled; the verified claims only exercise structurally valid or
structurally missing fields.) -/
def validateProduct (r : Record) : Option Product := do
  let i ← asInt (getKey r "id")
  let nm ← asStr (getKey r "name")
  if nm = "" then none
  else do
    let img ← asStr (getKey r "image_url")
    let desc ← asStr (getKey r "description")
    let pr ← asPrice (getKey r "price")
    let rat ← asOptStrOrNum (getKey r "rating")
    let specs ← asSpecs (getKey r "specifications")
    let src ← asOptStr (getKey r "source_url")
    some { id := i, name := nm, image_url := img, description := desc,
           price := pr, rating := rat, specifications := specs,
           source_url := src }

/-- Digit-sequence parse underlying Python `int(s)`. -/
def parseDigits (cs : List Char) : Option Nat :=
  if cs = [] then none
  else if cs.all Char.isDigit then
    some (cs.foldl (fun n c => n * 10 + (c.toNat - 48)) 0)
  else none

/-- Drop leading whitespace (one side of Python `str.strip()`). -/
def dropLeadingWs : List Char → List Char
  | [] => []
  | c :: rest => if c.isWhitespace then dropLeadingWs rest else c :: rest

/-- Python `str.strip()`: whitespace removed from both ends. -/
def pyStripChars (cs : List Char) : List Char :=
  (dropLeadingWs (dropLeadingWs cs).reverse).reverse

/-- Python `int(id_str.strip())` (`src/api/routes.py:107`): surrounding
whitespace stripped, optional sign, one or more ASCII digits; anything else
raises `ValueError` (`none`).  Digit-grouping underscores and non-ASCII
digits are not modelled. -/
def parsePyInt (s : String) : Option Int :=
  match pyStripChars s.toList with
  | '-' :: rest => (parseDigits rest).map (fun n => -(n : Int))
  | '+' :: rest => (parseDigits rest).map (fun n => (n : Int))
  | cs => (parseDigits cs).map (fun n => (n : Int))

/-- Python `s.split(",")` on the character level: split at every comma, with
no collapsing of empty fields (`"".split(",") == [""]`,
`"a,,b".split(",") == ["a", "", "b"]`). -/
def splitCommaChars : List Char → List (List Char)
  | [] => [[]]
  | c :: rest =>
      if c = ',' then [] :: splitCommaChars rest
      else
        match splitCommaChars rest with
        | [] => [[c]]
        | t :: ts => (c :: t) :: ts

/-- Python `ids.split(",")` (`src/api/routes.py:107`). -/
def pySplitComma (s : String) : List String :=
  (splitCommaChars s.toList).map (fun cs => String.mk cs)

/-- The membership test `p.get("id") in id_list` (`src/api/routes.py:108`) against a parsed list
of integers: the record's raw id must be a JSON number occurring in the
list. -/
def recordIdMatches (idList : List Int) (p : Record) : Bool :=
  match getKey p "id" with
  | some (Json.num n) => idList.contains n
  | _ => false

/-- The load / empty-check / ids-filter stage of `GET /products`
(`src/api/routes.py:94-121`): 404 when the stored catalog is empty, the
filter skipped entirely when `ids` is `None` or `""` (falsy), 400 when some
token of `ids` fails `int()`, 404 when the filter matches no record. -/
def filterStage (fs : FS) (ids : Option String) : Except Nat (List Record) :=
  let products_data := load_products fs "products.json"
  if products_data = [] then .error 404
  else
    match ids with
    | none => .ok products_data
    | some s =>
        if s = "" then .ok products_data
        else
          match (pySplitComma s).mapM parsePyInt with
          | none => .error 400
          | some idList =>
              let filtered := products_data.filter (recordIdMatches idList)
              if filtered = [] then .error 404 else .ok filtered

/-- The pagination step (`src/api/routes.py:123-130`): `[]` when
`offset >= total`, else `lst[offset : offset + limit]` when a limit is
given and `lst[offset : total]` otherwise. -/
def sliceWindow (pd : List Record) (offset : Nat) (limit : Option Nat) :
    List Record :=
  if pd.length ≤ offset then []
  else
    match limit with
    | some l => (pd.drop offset).take l
    | none => pd.drop offset

/-- Outcome of the route: HTTP 200 with `ProductResponse(total, products)`,
or an `HTTPException` status code. -/
inductive ApiOutcome : Type where
  | ok : Nat → List Product → ApiOutcome
  | httpError : Nat → ApiOutcome
deriving DecidableEq

instance {ε α : Type} [DecidableEq ε] [DecidableEq α] :
    DecidableEq (Except ε α) := fun a b =>
  match a, b with
  | .error x, .error y =>
      if h : x = y then isTrue (by rw [h])
      else isFalse (fun hh => h (Except.error.inj hh))
  | .ok x, .ok y =>
      if h : x = y then isTrue (by rw [h])
      else isFalse (fun hh => h (Except.ok.inj hh))
  | .error _, .ok _ => isFalse Except.noConfusion
  | .ok _, .error _ => isFalse Except.noConfusion

/-- Route `GET /products` (`src/api/routes.py:55-156`): filter stage, then
`total = len(products_data)` of the filtered set, then pagination, then
`Product(**p)` validation of exactly the records to be returned (500 when
one fails), then `ProductResponse(total=total, products=products)`. -/
def get_products (fs : FS) (ids : Option String) (limit : Option Nat)
    (offset : Nat) : ApiOutcome :=
  match filterStage fs ids with
  | .error c => .httpError c
  | .ok pd =>
      match (sliceWindow pd offset limit).mapM validateProduct with
      | none => .httpError 500
      | some products => .ok pd.length products

/-- C8: the route `GET /products` applies the ids filter first and offset/limit
slicing second, over the filtered set: 404 when the catalog is empty; 400
when some `ids` token is not an integer (catalog non-empty); 404 when the
ids filter matches no record; 500 when a record to be returned (i.e. in the
sliced window) fails `Product` validation; and on the success path the
response is built from the sliced filtered set with `total` the filtered
size — where the filter-stage output is exactly the ids-filtered catalog. -/
theorem get_products_contract (fs : FS) (ids : Option String)
    (limit : Option Nat) (offset : Nat) :
    (load_products fs "products.json" = []
      → get_products fs ids limit offset = .httpError 404)
    ∧ (∀ s, ids = some s → s ≠ "" → load_products fs "products.json" ≠ []
        → (pySplitComma s).mapM parsePyInt = none
        → get_products fs ids limit offset = .httpError 400)
    ∧ (∀ s idList, ids = some s → s ≠ ""
        → load_products fs "products.json" ≠ []
        → (pySplitComma s).mapM parsePyInt = some idList
        → (load_products fs "products.json").filter (recordIdMatches idList) = []
        → get_products fs ids limit offset = .httpError 404)
    ∧ (∀ s idList pd, ids = some s → s ≠ ""
        → (pySplitComma s).mapM parsePyInt = some idList
        → filterStage fs ids = .ok pd
        → pd = (load_products fs "products.json").filter (recordIdMatches idList))
    ∧ (∀ pd, filterStage fs ids = .ok pd
        → (sliceWindow pd offset limit).mapM validateProduct = none
        → get_products fs ids limit offset = .httpError 500)
    ∧ (∀ pd products, filterStage fs ids = .ok pd
        → (sliceWindow pd offset limit).mapM validateProduct = some products
        → get_products fs ids limit offset = .ok pd.length products) := by
  refine ⟨?_, ?_, ?_, ?_, ?_, ?_⟩
  · intro h
    simp only [get_products, filterStage, if_pos h]
  · rintro s rfl hs hload hparse
    simp only [get_products, filterStage, if_neg hload, if_neg hs, hparse]
  · rintro s idList rfl hs hload hparse hfil
    simp only [get_products, filterStage, if_neg hload, if_neg hs, hparse,
      if_pos hfil]
  · rintro s idList pd rfl hs hparse hfs
    simp only [filterStage] at hfs
    by_cases hload : load_products fs "products.json" = []
    · rw [if_pos hload] at hfs
      exact absurd hfs (by simp)
    · simp only [if_neg hload, if_neg hs, hparse] at hfs
      by_cases hfil : (load_products fs "products.json").filter
          (recordIdMatches idList) = []
      · rw [if_pos hfil] at hfs
        exact absurd hfs (by simp)
      · rw [if_neg hfil] at hfs
        exact (Except.ok.inj hfs).symm
  · intro pd hfs hval
    simp only [get_products, hfs, hval]
  · intro pd products hfs hval
    simp only [get_products, hfs, hval]

/-- C10: For a non-empty filtered set, an offset at or past its end
yields HTTP 200 with an empty product list (not 404), with `total` still
the size of the filtered set before slicing; and in every 200 response,
`total` equals the filtered-set size before pagination, not the number of
records returned. -/
theorem get_products_offset_beyond (fs : FS) (ids : Option String)
    (limit : Option Nat) (offset : Nat) :
    (∀ pd, filterStage fs ids = .ok pd → pd ≠ [] → pd.length ≤ offset
      → get_products fs ids limit offset = .ok pd.length [])
    ∧ (∀ t ps, get_products fs ids limit offset = .ok t ps
      → ∃ pd, filterStage fs ids = .ok pd ∧ t = pd.length) := by
  constructor
  · intro pd hfs _hne hoff
    have hslice : sliceWindow pd offset limit = [] := by
      rw [sliceWindow.eq_def, if_pos hoff]
    simp only [get_products, hfs, hslice]
    rfl
  · intro t ps h
    simp only [get_products] at h
    rcases hfs : filterStage fs ids with c | pd
    · simp only [hfs] at h
      exact absurd h (by simp)
    · simp only [hfs] at h
      rcases hval : (sliceWindow pd offset limit).mapM validateProduct
        with _ | products
      · simp only [hval] at h
        exact absurd h (by simp)
      · simp only [hval] at h
        simp only [ApiOutcome.ok.injEq] at h
        exact ⟨pd, rfl, h.1.symm⟩

/-- A structurally valid stored record. -/
def sampleRec : Record :=
  [("id", Json.num 1), ("name", Json.str "P"), ("image_url", Json.str "u"),
   ("description", Json.str "d"), ("price", Json.str "$1")]

/-- The `Product` that `sampleRec` validates to. -/
def sampleProduct : Product :=
  { id := 1, name := "P", image_url := "u", description := "d",
    price := Json.str "$1", rating := none, specifications := [],
    source_url := none }

/-- A record that fails `Product` validation (required `name` missing). -/
def sampleBadRec : Record := [("id", Json.num 1)]

/-- File system holding a one-record catalog. -/
def fsGood : FS := fun _ => FileState.stored [sampleRec]

/-- File system holding a catalog whose record fails validation. -/
def fsBad : FS := fun _ => FileState.stored [sampleBadRec]

/-- File system holding an empty catalog. -/
def fsEmptyCat : FS := fun _ => FileState.stored []

/-- Witness for C8: each route outcome exercised at a concrete input. -/
theorem get_products_contract_witness :
    get_products fsEmptyCat none none 0 = .httpError 404
    ∧ get_products fsGood (some "a,2") none 0 = .httpError 400
    ∧ get_products fsGood (some "9") none 0 = .httpError 404
    ∧ ([sampleRec] : List Record)
        = (load_products fsGood "products.json").filter (recordIdMatches [1])
    ∧ get_products fsBad none none 0 = .httpError 500
    ∧ get_products fsGood none none 0 = .ok 1 [sampleProduct] := by
  refine ⟨?_, ?_, ?_, ?_, ?_, ?_⟩
  · exact (get_products_contract fsEmptyCat none none 0).1 rfl
  · exact (get_products_contract fsGood (some "a,2") none 0).2.1 "a,2" rfl
      (by decide) (by decide) (by decide)
  · exact (get_products_contract fsGood (some "9") none 0).2.2.1 "9" [9] rfl
      (by decide) (by decide) (by decide) (by decide)
  · exact (get_products_contract fsGood (some "1") none 0).2.2.2.1 "1" [1]
      [sampleRec] rfl (by decide) (by decide) (by decide)
  · exact (get_products_contract fsBad none none 0).2.2.2.2.1 [sampleBadRec]
      (by decide) (by decide)
  · exact (get_products_contract fsGood none none 0).2.2.2.2.2 [sampleRec]
      [sampleProduct] (by decide) (by decide)

/-- Witness for C10: one-record catalog, offset 5 past the end: 200 with an
empty list and `total = 1`. -/
theorem get_products_offset_beyond_witness :
    get_products fsGood none none 5 = .ok 1 []
    ∧ (∃ pd, filterStage fsGood none = .ok pd ∧ 1 = pd.length) := by
  have h1 : get_products fsGood none none 5 = .ok 1 [] :=
    (get_products_offset_beyond fsGood none none 5).1 [sampleRec]
      (by decide) (by decide) (by decide)
  exact ⟨h1, (get_products_offset_beyond fsGood none none 5).2 1 [] h1⟩

end ProductScrapper
